import Mathlib

/-!
# gomod-check: flag validation, version filtering and row wrapping of `main.go`

A shallow embedding of the functions of `src/main.go`:
`validateFlagValues`, the start-up checks of `init`, `colorVersion`,
`filterVersions`, `unwrapRows` and the render loop of `main`.

Conventions of the embedding.

* Go `string` is `String`; `strings.Contains`, `strings.Split` and
  `strings.Join` are written out over the character lists.
* Go `int` is `Int`; no operation of `main.go` comes near the 64-bit bounds.
* Go `error` results are `Except String Unit`; `log.Fatal` is the error result.
* A run-time panic and running out of loop fuel are the two `Fault`s.
* `table.Writer` is the log of the `AppendRow` / `AppendSeparator` calls made
  on it, oldest first.
* The colour functions of `fatih/color` and the version library
  `hashicorp/go-version` are external; they are parameters.
-/

namespace GomodCheck

deriving instance DecidableEq for Except

/-! ## The `strings` functions used by `main.go` -/

namespace strings

/-- Whether `sub` occurs in `s` starting at some position. -/
def containsChars : List Char → List Char → Bool
  | [], sub => sub.isPrefixOf []
  | c :: cs, sub => sub.isPrefixOf (c :: cs) || containsChars cs sub

/-- Go `strings.Contains(s, substr)`: `substr` is within `s`
(the empty `substr` is within every string). -/
def Contains (s substr : String) : Bool :=
  containsChars s.data substr.data

/-- Splitting of a character list around every `sep`; `cur` is the piece
being read. -/
def splitChars (sep : Char) : List Char → List Char → List (List Char)
  | [], cur => [cur]
  | c :: cs, cur =>
    if c = sep then cur :: splitChars sep cs [] else splitChars sep cs (cur ++ [c])

/-- Go `strings.Split(s, sep)` for a one-character separator: the pieces of
`s` between the occurrences of `sep`; a string without `sep` (also the empty
string) gives the one-element list holding `s`. -/
def Split (s : String) (sep : Char) : List String :=
  (splitChars sep s.data []).map String.mk

/-- Go `strings.Join(elems, sep)`. -/
def Join : List String → String → String
  | [], _ => ""
  | [a], _ => a
  | a :: b :: rest, sep => a ++ sep ++ Join (b :: rest) sep

end strings

/-! ## Data -/

namespace color

/-- The `fatih/color` attributes that `main.go` names. -/
inductive Attribute
  | FgGreen
  | FgYellow
  | FgBlue
  deriving DecidableEq, Repr

end color

/-- The constant `entryLength` of `main.go`. -/
def entryLength : Int := 60

/-- The struct `config` of `main.go`. -/
structure config where
  maxVersionsFlag : Int
  filterFlag : String
  incompatibleFlag : Bool
  terminalWidth : Int
  deriving DecidableEq, Repr

/-- Modelled from the spec: the declaration of the struct `version` is not in
`main.go`; these are the fields `main.go` reads (`original`, `status`,
`incompatible`), with the types their uses force. -/
structure version where
  original : String
  status : String
  incompatible : Bool
  deriving DecidableEq, Repr

/-- Modelled from the spec: the declaration of the struct `Mod` is not in
`main.go`; these are the fields `main.go` reads. -/
structure Mod where
  Path : String
  CurrentVersion : version
  AvailableVersions : List version
  Status : String
  deriving DecidableEq, Repr

/-- A cell of a table row (`interface{}` holding an `int` or a `string`). -/
inductive Cell
  | int (n : Int)
  | str (s : String)
  deriving DecidableEq, Repr

/-- A call made on the `table.Writer`. -/
inductive TableOp
  | AppendRow (cells : List Cell)
  | AppendSeparator
  deriving DecidableEq, Repr

/-- The `table.Writer`: the calls made on it so far, oldest first. -/
abbrev Table := List TableOp

/-- The ways a run can fail to return: a Go panic, or the loop fuel of the
embedding running out. -/
inductive Fault
  | panic
  | outOfFuel
  deriving DecidableEq, Repr

/-- The part of `hashicorp/go-version` that `main` calls: `NewVersion`
(`none` when it returns an error) and `GreaterThan`. -/
structure VersionLib where
  V : Type
  NewVersion : String → Option V
  GreaterThan : V → V → Bool

/-! ## Start-up validation -/

/-- The function `validateFlagValues` of `main.go` on the configuration `cfg`. -/
def validateFlagValues (cfg : config) : Except String Unit :=
  if cfg.maxVersionsFlag ≤ 0 ∨ cfg.maxVersionsFlag > 1000 then
    .error "`max-version` can be between 1 and 1000"
  else if cfg.filterFlag.utf8ByteSize ≠ 0 ∧
      (strings.Contains cfg.filterFlag "major" = false ∨
       strings.Contains cfg.filterFlag "minor" = false ∨
       strings.Contains cfg.filterFlag "patch" = false) then
    .error "`filter` flag can be made up only from `major`, `minor` and `patch` values"
  else
    .ok ()

/-- The checks of `init` that follow `flag.Parse()`, on the parsed
configuration `cfg`; `log.Fatal` is the error result. -/
def init (cfg : config) : Except String Unit :=
  if cfg.maxVersionsFlag = 5 then
    .error "Oj"
  else
    match validateFlagValues cfg with
    | .error err => .error err
    | .ok _ => .ok ()

/-! ## Colouring and filtering -/

section Colours

variable (SprintFunc : color.Attribute → String → String)

/-- The variable `blue`: `color.New(color.FgBlue).SprintFunc()`. -/
def blue : String → String := SprintFunc color.Attribute.FgBlue

/-- The variable `yellow`: `color.New(color.FgYellow).SprintFunc()`. -/
def yellow : String → String := SprintFunc color.Attribute.FgYellow

/-- The variable `green`: `color.New(color.FgGreen).SprintFunc()`. -/
def green : String → String := SprintFunc color.Attribute.FgGreen

/-- The variable `red`: `color.New(color.FgGreen).SprintFunc()`, as in the source. -/
def red : String → String := SprintFunc color.Attribute.FgGreen

/-- The function `colorVersion` of `main.go`. -/
def colorVersion (status : String) (version : String) : String :=
  if status = "minor" then yellow SprintFunc version
  else if status = "major" then red SprintFunc version
  else if status = "patch" then green SprintFunc version
  else blue SprintFunc version

/-- The `for _, fil := range filters` loop of `filterVersions`. -/
def filterVersions.loop (ver : version) : List String → String
  | [] => ""
  | fil :: rest =>
    if strings.Contains ver.status fil then colorVersion SprintFunc ver.status ver.original
    else filterVersions.loop ver rest

/-- The function `filterVersions` of `main.go`. -/
def filterVersions (ver : version) (showIncompatible : Bool) (filter : String) : String :=
  if (!showIncompatible && ver.incompatible) = true then ""
  else if filter = "" then colorVersion SprintFunc ver.status ver.original
  else filterVersions.loop SprintFunc ver (strings.Split filter ',')

/-! ## Row wrapping -/

/-- Go `xs[:n]`; out of range is a panic. (Go bounds `n` by the capacity;
`unwrapRows` takes `xs[:n]` only where `n` is negative or at most the length.) -/
def sliceTo (xs : List String) (n : Int) : Except Fault (List String) :=
  if 0 ≤ n ∧ n ≤ (xs.length : Int) then .ok (xs.take n.toNat) else .error Fault.panic

/-- Go `xs[n:]`; out of range is a panic. -/
def sliceFrom (xs : List String) (n : Int) : Except Fault (List String) :=
  if 0 ≤ n ∧ n ≤ (xs.length : Int) then .ok (xs.drop n.toNat) else .error Fault.panic

/-- The first row of a dependency: `i + 1`, the coloured path, the current
version and the joined versions. -/
def firstRow (i : Int) (path curVersion : String) (chunk : List String) : TableOp :=
  .AppendRow [.int (i + 1), .str (blue SprintFunc path), .str curVersion,
    .str (strings.Join chunk ", ")]

/-- A following row of a dependency: three empty cells and the joined versions. -/
def nextRow (chunk : List String) : TableOp :=
  .AppendRow [.str "", .str "", .str "", .str (strings.Join chunk ", ")]

/-- The `for length > num` loop of `unwrapRows`; each iteration uses one unit
of fuel. -/
def unwrapRows.loop (num : Int) : Nat → Int → List String → Table → Except Fault Table
  | 0, length, _, t => if length > num then .error Fault.outOfFuel else .ok t
  | fuel + 1, length, versions, t =>
    if length > num then
      match sliceFrom versions num with
      | .error e => .error e
      | .ok versions1 =>
        if (versions1.length : Int) < num then
          unwrapRows.loop num fuel (length - num) versions1
            (t ++ [nextRow versions1, .AppendSeparator])
        else
          match sliceTo versions1 num with
          | .error e => .error e
          | .ok chunk =>
            unwrapRows.loop num fuel (length - num) versions1 (t ++ [nextRow chunk])
    else .ok t

/-- The function `unwrapRows` of `main.go`; `fuel` bounds the iterations of
its loop and the result is the table after the calls. -/
def unwrapRows (fuel : Nat) (i : Int) (path : String) (curVersion : String) (num : Int)
    (versions : List String) (t : Table) : Except Fault Table :=
  if (versions.length : Int) > num then
    match sliceTo versions num with
    | .error e => .error e
    | .ok chunk =>
      unwrapRows.loop num fuel (versions.length : Int) versions
        (t ++ [firstRow SprintFunc i path curVersion chunk])
  else
    .ok (t ++ [firstRow SprintFunc i path curVersion versions, .AppendSeparator])

/-! ## The render loop of `main` -/

/-- The value `versionNumber` of `main`: `(width - entryLength) / 10`, Go
division truncating toward zero. -/
def versionNumber (width : Int) : Int := (width - entryLength).tdiv 10

/-- The inner loop of `main` building `newVersions` for one mod; `acc` is
`newVersions` so far. A version string that `NewVersion` refuses ends in a
panic (explicitly for the current version, through the nil receiver of
`GreaterThan` for an available one). -/
def main.newVersionsLoop (L : VersionLib) (cfg : config) (mod : Mod) :
    List version → List String → Except Fault (List String)
  | [], acc => .ok acc
  | availableVer :: rest, acc =>
    match L.NewVersion mod.CurrentVersion.original with
    | none => .error Fault.panic
    | some currentVersion =>
      match L.NewVersion availableVer.original with
      | none => .error Fault.panic
      | some availableVersion =>
        if L.GreaterThan availableVersion currentVersion = true then
          if filterVersions SprintFunc availableVer cfg.incompatibleFlag cfg.filterFlag ≠ "" then
            main.newVersionsLoop L cfg mod rest
              (acc ++ [filterVersions SprintFunc availableVer cfg.incompatibleFlag cfg.filterFlag])
          else main.newVersionsLoop L cfg mod rest acc
        else main.newVersionsLoop L cfg mod rest acc

/-- The list `newVersions` that `main` builds for `mod`. -/
def main.newVersions (L : VersionLib) (cfg : config) (mod : Mod) : Except Fault (List String) :=
  main.newVersionsLoop SprintFunc L cfg mod mod.AvailableVersions []

/-- The loop `for i, mod := range mods` of `main`, from index `i` on, with
`num` the value of `versionNumber` and `fuel` the fuel of each `unwrapRows`
call. -/
def main.renderLoop (fuel : Nat) (L : VersionLib) (cfg : config) (num : Int) :
    Nat → List Mod → Table → Except Fault Table
  | _, [], t => .ok t
  | i, mod :: rest, t =>
    match main.newVersions SprintFunc L cfg mod with
    | .error e => .error e
    | .ok newVersions =>
      if newVersions.length ≠ 0 then
        match unwrapRows SprintFunc fuel (i : Int) mod.Path mod.CurrentVersion.original num
            newVersions t with
        | .error e => .error e
        | .ok t1 => main.renderLoop fuel L cfg num (i + 1) rest t1
      else main.renderLoop fuel L cfg num (i + 1) rest t

/-- Whether `main` finds the available version `a` greater than the parsed
current version `c` (`false` when `a` does not parse). -/
def main.newerThan (L : VersionLib) (c : L.V) (a : version) : Bool :=
  match L.NewVersion a.original with
  | some x => L.GreaterThan x c
  | none => false

/-- Whether `main` calls `unwrapRows` for `mod`, that is, whether `mod` has a
row in the table. -/
def main.hasRow (L : VersionLib) (cfg : config) (mod : Mod) : Bool :=
  match main.newVersions SprintFunc L cfg mod with
  | .ok newVersions => decide (newVersions.length ≠ 0)
  | .error _ => false

end Colours

/-! ## Reading a table back -/

/-- The numbers in the "#" column, top to bottom. -/
def rankColumn : Table → List Int
  | [] => []
  | .AppendRow (.int n :: _) :: rest => n :: rankColumn rest
  | _ :: rest => rankColumn rest

/-- The rows of a table, separators left out. -/
def rowsOf : Table → List (List Cell)
  | [] => []
  | .AppendRow cells :: rest => cells :: rowsOf rest
  | .AppendSeparator :: rest => rowsOf rest

/-- The number of `AppendSeparator` calls in a table. -/
def separatorCount : Table → Nat
  | [] => 0
  | .AppendSeparator :: rest => separatorCount rest + 1
  | .AppendRow _ :: rest => separatorCount rest

/-- The three tier names. -/
def tierNames : List String := ["major", "minor", "patch"]

/-! ## Concrete stand-ins for the external libraries -/

/-- The colour functions with colour switched off (`color.NoColor`, the state
`fatih/color` takes when the output is not a terminal): the text unchanged. -/
def plainSprint : color.Attribute → String → String := fun _ s => s

/-- The SGR code of an attribute. -/
def sgrCode : color.Attribute → String
  | .FgGreen => "32"
  | .FgYellow => "33"
  | .FgBlue => "34"

/-- The colour functions with colour on: the text between the escape sequence
of the attribute and the reset sequence. -/
def ansiSprint : color.Attribute → String → String :=
  fun a s => "\x1b[" ++ sgrCode a ++ "m" ++ s ++ "\x1b[0m"

/-- Reading of a run of decimal digits. -/
def digitsToNat : List Char → Nat → Option Nat
  | [], acc => some acc
  | c :: cs, acc =>
    if c.isDigit then digitsToNat cs (acc * 10 + (c.toNat - 48)) else none

/-- Reading of one dotted segment: a non-empty run of digits. -/
def segmentToNat (seg : List Char) : Option Nat :=
  if seg = [] then none else digitsToNat seg 0

/-- The characters before the first `+` (the build metadata is left out). -/
def beforePlus : List Char → List Char
  | [] => []
  | c :: cs => if c = '+' then [] else c :: beforePlus cs

/-- Version strings of the plain form `v1.2.3` or `1.2.3`, with or without
build metadata: the numeric segments. -/
def dottedSegments (s : String) : Option (List Nat) :=
  (strings.splitChars '.' (beforePlus (match s.data with | 'v' :: r => r | r => r)) []).mapM
    segmentToNat

/-- Comparison of segment lists, a missing segment counting as zero. -/
def segmentsGreater : List Nat → List Nat → Bool
  | [], _ => false
  | a :: as, [] => decide (a > 0) || segmentsGreater as []
  | a :: as, b :: bs => decide (a > b) || (a == b && segmentsGreater as bs)

/-- A stand-in for the version library on plain dotted numeric versions. -/
@[reducible]
def dottedLib : VersionLib where
  V := List Nat
  NewVersion := dottedSegments
  GreaterThan := segmentsGreater


/-- A dependency whose only newer version is incompatible. -/
def sampleModA : Mod :=
  ⟨"example.com/a", ⟨"v1.0.0", "", false⟩, [⟨"v2.0.0+incompatible", "major", true⟩], "major"⟩

/-- A dependency with one newer minor version. -/
def sampleModB : Mod :=
  ⟨"example.com/b", ⟨"v1.0.0", "", false⟩, [⟨"v1.1.0", "minor", false⟩], "minor"⟩

/-- A dependency with a newer minor version and a newer incompatible version. -/
def sampleModC : Mod :=
  ⟨"example.com/c", ⟨"v1.0.0", "", false⟩,
    [⟨"v1.1.0", "minor", false⟩, ⟨"v2.0.0+incompatible", "major", true⟩], "major"⟩

/-- The configuration of a run without flags: the flag defaults, and the zero
value of `terminalWidth`, which `main.go` never assigns. -/
def defaultConfig : config := ⟨10, "major,minor,patch", false, 0⟩

/-! # Theorems -/

/-! ## Lemmas on the string functions -/

theorem splitChars_no_sep (sep : Char) (a cur : List Char) (h : sep ∉ a) :
    strings.splitChars sep a cur = [cur ++ a] := by
  induction a generalizing cur with
  | nil => simp [strings.splitChars]
  | cons c cs ih =>
    have hc : c ≠ sep := fun e => h (by simp [e])
    have hcs : sep ∉ cs := fun e => h (by simp [e])
    simp [strings.splitChars, hc, ih _ hcs]

theorem splitChars_append_sep (sep : Char) (a rest cur : List Char) (h : sep ∉ a) :
    strings.splitChars sep (a ++ sep :: rest) cur
      = (cur ++ a) :: strings.splitChars sep rest [] := by
  induction a generalizing cur with
  | nil => simp [strings.splitChars]
  | cons c cs ih =>
    have hc : c ≠ sep := fun e => h (by simp [e])
    have hcs : sep ∉ cs := fun e => h (by simp [e])
    simp [strings.splitChars, hc, ih _ hcs]

theorem Split_Join_comma (toks : List String) (hne : toks ≠ [])
    (h : ∀ t ∈ toks, ',' ∉ t.data) :
    strings.Split (strings.Join toks ",") ',' = toks := by
  induction toks with
  | nil => exact absurd rfl hne
  | cons a rest ih =>
    cases rest with
    | nil =>
      have ha : ',' ∉ a.data := h a (by simp)
      simp [strings.Split, strings.Join, splitChars_no_sep _ _ _ ha]
    | cons b rest =>
      have ha : ',' ∉ a.data := h a (by simp)
      have ih1 := ih (by simp) (fun t ht => h t (by simp at ht ⊢; tauto))
      simp only [strings.Split] at ih1 ⊢
      have : (strings.Join (a :: b :: rest) ",").data
          = a.data ++ ',' :: (strings.Join (b :: rest) ",").data := by
        simp [strings.Join, String.data_append]
      rw [this, splitChars_append_sep _ _ _ _ ha]
      simp [ih1]

theorem Join_ne_empty (a : String) (rest : List String) (sep : String) (ha : a ≠ "") :
    strings.Join (a :: rest) sep ≠ "" := by
  have hd : a.data ≠ [] := fun e => ha (String.ext e)
  intro hj
  have : (strings.Join (a :: rest) sep).data = [] := by rw [hj]
  cases rest with
  | nil => simp [strings.Join] at this; exact hd this
  | cons b rest => simp [strings.Join, String.data_append] at this; exact hd this.1

theorem tier_no_comma : ∀ t ∈ tierNames, ',' ∉ t.data := by decide

theorem tier_ne_empty : ∀ t ∈ tierNames, t ≠ "" := by decide

theorem Contains_tier : ∀ s ∈ tierNames, ∀ t ∈ tierNames,
    strings.Contains s t = decide (s = t) := by decide


theorem default_filter_contains :
    strings.Contains "major,minor,patch" "major" = true ∧
    strings.Contains "major,minor,patch" "minor" = true ∧
    strings.Contains "major,minor,patch" "patch" = true := by decide

theorem validateFlagValues_default_filter (m : Int) (b : Bool) (w : Int) :
    validateFlagValues ⟨m, "major,minor,patch", b, w⟩ = .ok () ↔ 1 ≤ m ∧ m ≤ 1000 := by
  obtain ⟨h1, h2, h3⟩ := default_filter_contains
  unfold validateFlagValues
  simp only [h1, h2, h3]
  by_cases hm : m ≤ 0 ∨ m > 1000
  · simp only [hm, if_true]
    constructor
    · intro h; cases h
    · intro h; omega
  · simp only [hm, if_false]
    constructor
    · intro _; omega
    · intro _; simp

theorem init_default_filter_of_ne_five (m : Int) (b : Bool) (w : Int) (hm : m ≠ 5) :
    init ⟨m, "major,minor,patch", b, w⟩ = .ok () ↔ 1 ≤ m ∧ m ≤ 1000 := by
  rw [← validateFlagValues_default_filter m b w]
  unfold init
  simp only [hm, if_false]
  cases h : validateFlagValues ⟨m, "major,minor,patch", b, w⟩ <;> simp

/-- C1: with the default filter and max-versions 5, a value inside 1..1000 that
`validateFlagValues` accepts, the start-up checks of `init` stop the program
with the message "Oj". -/
theorem init_rejects_five (b : Bool) (w : Int) :
    init ⟨5, "major,minor,patch", b, w⟩ = .error "Oj" ∧
    validateFlagValues ⟨5, "major,minor,patch", b, w⟩ = .ok () := by
  refine ⟨by simp [init], ?_⟩
  rw [validateFlagValues_default_filter]
  omega

/-- C2: for every max-versions value the one-tier filter "major" and the
two-tier filter "minor,patch" make `validateFlagValues` return an error. -/
theorem validateFlagValues_rejects_tier_subsets (m : Int) (b : Bool) (w : Int) :
    validateFlagValues ⟨m, "major", b, w⟩ ≠ .ok () ∧
    validateFlagValues ⟨m, "minor,patch", b, w⟩ ≠ .ok () := by
  have h1 : strings.Contains "major" "minor" = false := by decide
  have h2 : strings.Contains "minor,patch" "major" = false := by decide
  have h3 : ("major" : String).utf8ByteSize ≠ 0 := by decide
  have h4 : ("minor,patch" : String).utf8ByteSize ≠ 0 := by decide
  unfold validateFlagValues
  constructor
  · by_cases hm : m ≤ 0 ∨ m > 1000
    · simp only [hm, if_true]; intro h; cases h
    · simp only [hm, if_false, h1]; simp; exact h3
  · by_cases hm : m ≤ 0 ∨ m > 1000
    · simp only [hm, if_true]; intro h; cases h
    · simp only [hm, if_false, h2]; simp; exact h4

/-- C3: for every max-versions value in 1..1000 the filter
"major,minor,patch,foo" passes `validateFlagValues` although its token "foo"
is none of the three tier names. -/
theorem validateFlagValues_accepts_foreign_token (m : Int) (b : Bool) (w : Int)
    (h1 : 1 ≤ m) (h2 : m ≤ 1000) :
    validateFlagValues ⟨m, "major,minor,patch,foo", b, w⟩ = .ok () ∧
    "foo" ∈ strings.Split "major,minor,patch,foo" ',' ∧ "foo" ∉ tierNames := by
  have c1 : strings.Contains "major,minor,patch,foo" "major" = true := by decide
  have c2 : strings.Contains "major,minor,patch,foo" "minor" = true := by decide
  have c3 : strings.Contains "major,minor,patch,foo" "patch" = true := by decide
  refine ⟨?_, by decide, by decide⟩
  unfold validateFlagValues
  have hm : ¬ (m ≤ 0 ∨ m > 1000) := by omega
  simp only [hm, if_false, c1, c2, c3]
  simp

theorem validateFlagValues_accepts_foreign_token_witness :
    (1 : Int) ≤ 10 ∧ (10 : Int) ≤ 1000 ∧
    validateFlagValues ⟨10, "major,minor,patch,foo", false, 0⟩ = .ok () ∧
    "foo" ∈ strings.Split "major,minor,patch,foo" ',' ∧ "foo" ∉ tierNames :=
  ⟨by decide, by decide,
    validateFlagValues_accepts_foreign_token 10 false 0 (by decide) (by decide)⟩

/-! ## Filtering -/

theorem filterVersions_loop_tiers (SprintFunc : color.Attribute → String → String)
    (v : version) (toks : List String) (hstatus : v.status ∈ tierNames)
    (htoks : ∀ t ∈ toks, t ∈ tierNames) :
    filterVersions.loop SprintFunc v toks
      = if v.status ∈ toks then colorVersion SprintFunc v.status v.original else "" := by
  induction toks with
  | nil => simp [filterVersions.loop]
  | cons t rest ih =>
    have ht : t ∈ tierNames := htoks t (by simp)
    have ih1 := ih (fun x hx => htoks x (by simp [hx]))
    rw [filterVersions.loop, Contains_tier _ hstatus _ ht, ih1]
    by_cases h : v.status = t
    · simp [h]
    · simp [h]

theorem filterVersions_loop_of_contains (SprintFunc : color.Attribute → String → String)
    (v : version) (toks : List String) (t : String) (ht : t ∈ toks)
    (hc : strings.Contains v.status t = true) :
    filterVersions.loop SprintFunc v toks = colorVersion SprintFunc v.status v.original := by
  induction toks with
  | nil => simp at ht
  | cons a rest ih =>
    rw [filterVersions.loop]
    by_cases ha : strings.Contains v.status a = true
    · simp [ha]
    · have : t ∈ rest := by
        rcases List.mem_cons.mp ht with h | h
        · exact absurd (h ▸ hc) ha
        · exact h
      simp [ha, ih this]

theorem Split_default_filter :
    strings.Split "major,minor,patch" ',' = ["major", "minor", "patch"] := by decide

/-- C4: for a version whose status is a tier name and a filter that is the
comma-separated list of a non-empty list `toks` of tier names, `filterVersions`
returns the coloured version when (showIncompatible is true or the version is
not incompatible) and the status is one of `toks`, and the empty string
otherwise; in particular an incompatible version is dropped when
showIncompatible is false. -/
theorem filterVersions_keeps_requested_tiers
    (SprintFunc : color.Attribute → String → String) (v : version)
    (showIncompatible : Bool) (toks : List String)
    (hstatus : v.status ∈ tierNames) (hne : toks ≠ [])
    (htoks : ∀ t ∈ toks, t ∈ tierNames) :
    filterVersions SprintFunc v showIncompatible (strings.Join toks ",")
      = (if (showIncompatible = true ∨ v.incompatible = false) ∧ v.status ∈ toks
          then colorVersion SprintFunc v.status v.original else "") ∧
    (showIncompatible = false → v.incompatible = true →
      filterVersions SprintFunc v showIncompatible (strings.Join toks ",") = "") := by
  have hmain : filterVersions SprintFunc v showIncompatible (strings.Join toks ",")
      = (if (showIncompatible = true ∨ v.incompatible = false) ∧ v.status ∈ toks
          then colorVersion SprintFunc v.status v.original else "") := by
    unfold filterVersions
    by_cases hgate : (!showIncompatible && v.incompatible) = true
    · have hn : ¬ (showIncompatible = true ∨ v.incompatible = false) := by
        cases showIncompatible <;> cases hi : v.incompatible <;> simp_all
      simp [hgate, hn]
    · have hy : showIncompatible = true ∨ v.incompatible = false := by
        cases showIncompatible <;> cases hi : v.incompatible <;> simp_all
      have hjoin : strings.Join toks "," ≠ "" := by
        cases toks with
        | nil => exact absurd rfl hne
        | cons a rest =>
          exact Join_ne_empty a rest "," (tier_ne_empty a (htoks a (by simp)))
      rw [if_neg hgate, if_neg hjoin,
        Split_Join_comma toks hne (fun t ht => tier_no_comma t (htoks t ht)),
        filterVersions_loop_tiers SprintFunc v toks hstatus htoks]
      simp [hy]
  refine ⟨hmain, ?_⟩
  intro hs hi
  rw [hmain]
  simp [hs, hi]

theorem filterVersions_keeps_requested_tiers_witness :
    ("minor" ∈ tierNames ∧ ["minor", "patch"] ≠ [] ∧ (∀ t ∈ ["minor", "patch"], t ∈ tierNames)) ∧
    (filterVersions ansiSprint ⟨"v1.1.0", "minor", false⟩ false (strings.Join ["minor", "patch"] ",")
      = (if (false = true ∨ false = false) ∧ "minor" ∈ ["minor", "patch"]
          then colorVersion ansiSprint "minor" "v1.1.0" else "") ∧
    (false = false → false = true →
      filterVersions ansiSprint ⟨"v1.1.0", "minor", false⟩ false
        (strings.Join ["minor", "patch"] ",") = "")) :=
  ⟨⟨by decide, by decide, by decide⟩,
    filterVersions_keeps_requested_tiers ansiSprint ⟨"v1.1.0", "minor", false⟩ false
      ["minor", "patch"] (by decide) (by decide) (by decide)⟩

/-- C5, as amended: for every version whose status contains one of the three
tier names (so for every version of status "major", "minor" or "patch"),
incompatible or not, `filterVersions` with showIncompatible true gives the same
result for the filter "major,minor,patch" and for the empty filter, namely
`colorVersion` of the status and the original string. -/
theorem filterVersions_default_filter_keeps_tiers
    (SprintFunc : color.Attribute → String → String) (v : version)
    (h : strings.Contains v.status "major" = true ∨ strings.Contains v.status "minor" = true ∨
      strings.Contains v.status "patch" = true) :
    filterVersions SprintFunc v true "major,minor,patch" = filterVersions SprintFunc v true "" ∧
    filterVersions SprintFunc v true "" = colorVersion SprintFunc v.status v.original := by
  have hne : ("major,minor,patch" : String) ≠ "" := by decide
  have h2 : filterVersions SprintFunc v true "" = colorVersion SprintFunc v.status v.original := by
    simp [filterVersions]
  refine ⟨?_, h2⟩
  rw [h2]
  unfold filterVersions
  rw [if_neg (by simp), if_neg hne, Split_default_filter]
  rcases h with h | h | h
  · exact filterVersions_loop_of_contains SprintFunc v _ "major" (by simp) h
  · exact filterVersions_loop_of_contains SprintFunc v _ "minor" (by simp) h
  · exact filterVersions_loop_of_contains SprintFunc v _ "patch" (by simp) h

theorem filterVersions_default_filter_keeps_tiers_witness :
    (strings.Contains "minor" "major" = true ∨ strings.Contains "minor" "minor" = true ∨
      strings.Contains "minor" "patch" = true) ∧
    filterVersions ansiSprint ⟨"v2.1.0+incompatible", "minor", true⟩ true "major,minor,patch"
      = filterVersions ansiSprint ⟨"v2.1.0+incompatible", "minor", true⟩ true "" ∧
    filterVersions ansiSprint ⟨"v2.1.0+incompatible", "minor", true⟩ true ""
      = colorVersion ansiSprint "minor" "v2.1.0+incompatible" :=
  ⟨by decide,
    filterVersions_default_filter_keeps_tiers ansiSprint ⟨"v2.1.0+incompatible", "minor", true⟩
      (by decide)⟩

/-- C5 fails as stated: a version whose status is "current" is dropped by the
filter "major,minor,patch" and kept by the empty filter, with colour on or off. -/
theorem default_filter_drops_other_status :
    filterVersions plainSprint ⟨"v1.0.0", "current", false⟩ true "major,minor,patch" = "" ∧
    filterVersions plainSprint ⟨"v1.0.0", "current", false⟩ true "" = "v1.0.0" ∧
    colorVersion plainSprint "current" "v1.0.0" = "v1.0.0" ∧
    filterVersions ansiSprint ⟨"v1.0.0", "current", false⟩ true "major,minor,patch"
      ≠ filterVersions ansiSprint ⟨"v1.0.0", "current", false⟩ true "" := by
  decide

/-- C6 fails as stated: with the empty filter a "minor" version is kept, with
showIncompatible off or on and with colour on or off. -/
theorem empty_filter_keeps_minor_version :
    filterVersions plainSprint ⟨"v1.1.0", "minor", false⟩ false "" = "v1.1.0" ∧
    filterVersions plainSprint ⟨"v1.1.0", "minor", false⟩ true "" = "v1.1.0" ∧
    filterVersions ansiSprint ⟨"v1.1.0", "minor", false⟩ false "" ≠ "" ∧
    main.newVersions plainSprint dottedLib ⟨10, "", false, 0⟩ sampleModB = .ok ["v1.1.0"] := by
  decide


/-! ## Row wrapping -/

theorem rankColumn_append (a b : Table) : rankColumn (a ++ b) = rankColumn a ++ rankColumn b := by
  induction a with
  | nil => rfl
  | cons x xs ih =>
    cases x with
    | AppendSeparator => simpa [rankColumn] using ih
    | AppendRow cells =>
      cases cells with
      | nil => simpa [rankColumn] using ih
      | cons c cs =>
        cases c with
        | int n => simp [rankColumn, ih]
        | str s => simpa [rankColumn] using ih

theorem rowsOf_append (a b : Table) : rowsOf (a ++ b) = rowsOf a ++ rowsOf b := by
  induction a with
  | nil => rfl
  | cons x xs ih => cases x <;> simp [rowsOf, ih]

theorem separatorCount_append (a b : Table) :
    separatorCount (a ++ b) = separatorCount a + separatorCount b := by
  induction a with
  | nil => simp [separatorCount]
  | cons x xs ih =>
    cases x with
    | AppendRow cells => simp [separatorCount, ih]
    | AppendSeparator => simp [separatorCount, ih]; omega

theorem sliceTo_natCast (xs : List String) (n : Nat) (h : n ≤ xs.length) :
    sliceTo xs (n : Int) = .ok (xs.take n) := by
  have : (0 : Int) ≤ n ∧ (n : Int) ≤ (xs.length : Int) := ⟨by omega, by omega⟩
  simp [sliceTo, this]

theorem sliceFrom_natCast (xs : List String) (n : Nat) (h : n ≤ xs.length) :
    sliceFrom xs (n : Int) = .ok (xs.drop n) := by
  have : (0 : Int) ≤ n ∧ (n : Int) ≤ (xs.length : Int) := ⟨by omega, by omega⟩
  simp [sliceFrom, this]

theorem unwrapRows_loop_exit (num : Int) (fuel : Nat) (length : Int) (versions : List String)
    (t : Table) (h : ¬ length > num) :
    unwrapRows.loop num fuel length versions t = .ok t := by
  cases fuel
  · simp [unwrapRows.loop, h]
  · simp [unwrapRows.loop, h]

theorem separator_arith (n l1 l : Nat) (hn : 1 ≤ n) (e : l = l1 + n) (h : n ≤ l1) :
    (if n < l1 ∧ l1 % n ≠ 0 then 1 else 0) = (if n < l ∧ l % n ≠ 0 then (1 : Nat) else 0) := by
  have hmod : l % n = l1 % n := by rw [e, Nat.add_mod_right]
  have hl : n < l := by omega
  by_cases hm : l1 % n = 0
  · simp [hm, hmod]
  · have : n < l1 := by
      rcases Nat.lt_or_ge n l1 with h1 | h1
      · exact h1
      · have h2 : l1 = n := by omega
        rw [h2, Nat.mod_self] at hm
        exact absurd rfl hm
    simp [hm, hmod, this, hl]

/-- The loop of `unwrapRows` for `num ≥ 1`, with fuel for every iteration: it
returns, and the rows it appends carry the chunks of `versions[num:]`. -/
theorem unwrapRows_loop_spec (n : Nat) (hn : 1 ≤ n) :
    ∀ (fuel : Nat) (versions : List String) (t : Table), versions.length ≤ fuel →
    ∃ (cs : List (List String)) (ops : Table),
      unwrapRows.loop (n : Int) fuel (versions.length : Int) versions t = .ok (t ++ ops) ∧
      rowsOf ops = rowsOf (cs.map nextRow) ∧
      cs.flatten = versions.drop n ∧
      (∀ c ∈ cs, c.length ≤ n) ∧
      (∀ c ∈ cs.dropLast, c.length = n) ∧
      rankColumn ops = [] ∧
      separatorCount ops = (if n < versions.length ∧ versions.length % n ≠ 0 then 1 else 0) ∧
      (separatorCount ops = 1 → ops.getLast? = some TableOp.AppendSeparator) := by
  intro fuel
  induction fuel with
  | zero =>
    intro versions t hf
    have hv : versions = [] := List.eq_nil_of_length_eq_zero (by omega)
    subst hv
    refine ⟨[], [], ?_, by simp [rowsOf], by simp, by simp, by simp, by simp [rankColumn],
      by simp [separatorCount], by simp [separatorCount]⟩
    have : ¬ ((0 : Int) > (n : Int)) := by omega
    simp [unwrapRows.loop, this]
  | succ fuel ih =>
    intro versions t hf
    by_cases hlen : n < versions.length
    · have hgt : ((versions.length : Int) > (n : Int)) := by omega
      have hdl : (versions.drop n).length = versions.length - n := List.length_drop n versions
      have hsub : (versions.length : Int) - (n : Int) = ((versions.drop n).length : Int) := by
        rw [hdl]; omega
      rw [unwrapRows.loop]
      simp only [hgt, if_true, sliceFrom_natCast versions n (by omega), hsub]
      by_cases hshort : (versions.drop n).length < n
      · have hs : (((versions.drop n).length : Int) < (n : Int)) := by omega
        simp only [hs, if_true]
        refine ⟨[versions.drop n], [nextRow (versions.drop n), TableOp.AppendSeparator],
          ?_, by simp [rowsOf, nextRow], by simp, ?_, by simp, by simp [rankColumn, nextRow], ?_,
          by simp⟩
        · exact unwrapRows_loop_exit _ _ _ _ _ (by omega)
        · intro c hc
          simp at hc
          subst hc
          omega
        · have hmod : versions.length % n ≠ 0 := by
            have e : versions.length = (versions.drop n).length + n := by omega
            rw [e, Nat.add_mod_right, Nat.mod_eq_of_lt hshort]
            omega
          simp [separatorCount, nextRow, hlen, hmod]
      · have hs : ¬ (((versions.drop n).length : Int) < (n : Int)) := by omega
        simp only [hs, if_false, sliceTo_natCast (versions.drop n) n (by omega)]
        obtain ⟨cs, ops, hrun, hrows, hflat, hle, hfull, hrank, hsep, hlast⟩ :=
          ih (versions.drop n) (t ++ [nextRow ((versions.drop n).take n)]) (by omega)
        refine ⟨(versions.drop n).take n :: cs, nextRow ((versions.drop n).take n) :: ops,
          ?_, ?_, ?_, ?_, ?_, ?_, ?_, ?_⟩
        · rw [hrun]; simp
        · simp [rowsOf, nextRow] at hrows ⊢
          exact hrows
        · simp [hflat]
        · intro c hc
          rcases List.mem_cons.mp hc with h | h
          · subst h; simp
          · exact hle c h
        · intro c hc
          cases cs with
          | nil => simp at hc
          | cons x xs =>
            rw [List.dropLast_cons₂] at hc
            rcases List.mem_cons.mp hc with h | h
            · subst h
              rw [List.length_take]
              omega
            · exact hfull c h
        · simpa [rankColumn, nextRow] using hrank
        · have hsc : separatorCount (nextRow ((versions.drop n).take n) :: ops)
              = separatorCount ops := by simp [separatorCount, nextRow]
          rw [hsc, hsep]
          exact separator_arith n _ _ hn (by omega) (by omega)
        · intro h1
          have hsc : separatorCount (nextRow ((versions.drop n).take n) :: ops)
              = separatorCount ops := by simp [separatorCount, nextRow]
          rw [hsc] at h1
          have hl := hlast h1
          cases ops with
          | nil => simp at hl
          | cons o os => simpa [List.getLast?_cons_cons] using hl
    · have hgt : ¬ ((versions.length : Int) > (n : Int)) := by omega
      refine ⟨[], [], ?_, by simp [rowsOf], ?_, by simp, by simp, by simp [rankColumn],
        by simp [separatorCount, hlen], by simp [separatorCount]⟩
      · rw [unwrapRows_loop_exit _ _ _ _ _ hgt]; simp
      · simp [List.drop_eq_nil_of_le (Nat.le_of_not_lt hlen)]


theorem rowsOf_map_nextRow (cs : List (List String)) :
    rowsOf (cs.map nextRow)
      = cs.map (fun x => [Cell.str "", Cell.str "", Cell.str "",
          Cell.str (strings.Join x ", ")]) := by
  induction cs with
  | nil => rfl
  | cons y ys ih => simp [rowsOf, nextRow, ih]

/-- The function `unwrapRows` for `num ≥ 1` and a non-empty list, with fuel for
every iteration: it returns, and what it appends is the first row followed by
the rows of the loop. -/
theorem unwrapRows_spec (SprintFunc : color.Attribute → String → String) (n : Nat)
    (hn : 1 ≤ n) (fuel : Nat) (i : Int) (path curVersion : String) (versions : List String)
    (t : Table) (hne : versions ≠ []) (hf : versions.length ≤ fuel) :
    ∃ (c : List String) (cs : List (List String)) (ops : Table),
      unwrapRows SprintFunc fuel i path curVersion (n : Int) versions t
        = .ok (t ++ firstRow SprintFunc i path curVersion c :: ops) ∧
      rowsOf ops = rowsOf (cs.map nextRow) ∧
      (c :: cs).flatten = versions ∧
      (∀ x ∈ c :: cs, x.length ≤ n) ∧
      (∀ x ∈ (c :: cs).dropLast, x.length = n) ∧
      rankColumn ops = [] ∧
      separatorCount ops = (if n < versions.length ∧ versions.length % n = 0 then 0 else 1) ∧
      (separatorCount ops = 1 → ops.getLast? = some TableOp.AppendSeparator) := by
  by_cases hlen : n < versions.length
  · have hgt : ((versions.length : Int) > (n : Int)) := by omega
    obtain ⟨cs, ops, hrun, hrows, hflat, hle, hfull, hrank, hsep, hlast⟩ :=
      unwrapRows_loop_spec n hn fuel versions
        (t ++ [firstRow SprintFunc i path curVersion (versions.take n)]) hf
    refine ⟨versions.take n, cs, ops, ?_, hrows, ?_, ?_, ?_, hrank, ?_, hlast⟩
    · unfold unwrapRows
      simp only [hgt, if_true, sliceTo_natCast versions n (by omega)]
      rw [hrun]
      simp
    · simp [hflat]
    · intro x hx
      rcases List.mem_cons.mp hx with h | h
      · subst h; simp
      · exact hle x h
    · intro x hx
      cases cs with
      | nil => simp at hx
      | cons y ys =>
        rw [List.dropLast_cons₂] at hx
        rcases List.mem_cons.mp hx with h | h
        · subst h
          rw [List.length_take]
          omega
        · exact hfull x h
    · rw [hsep]
      by_cases hm : versions.length % n = 0
      · simp [hm, hlen]
      · simp [hm, hlen]
  · have hgt : ¬ ((versions.length : Int) > (n : Int)) := by omega
    refine ⟨versions, [], [TableOp.AppendSeparator], ?_, by simp [rowsOf], by simp, ?_,
      by simp, by simp [rankColumn], by simp [separatorCount, hlen], by simp⟩
    · unfold unwrapRows
      simp [hgt]
    · intro x hx
      simp at hx
      subst hx
      omega

/-- C8: for `num ≥ 1` and a non-empty list `versions`, with fuel for every
iteration, `unwrapRows` returns a table that extends the given one; the rows
it appends are a first row carrying `i + 1`, the coloured path, the current
version and the joined chunk `c`, then rows whose first three cells are empty
carrying the joined chunks `cs`; the chunks concatenated in row order are
`versions`, each holds at most `num` versions and each but the last holds
exactly `num`. -/
theorem unwrapRows_wraps_versions (SprintFunc : color.Attribute → String → String)
    (fuel : Nat) (i : Int) (path curVersion : String) (num : Int) (versions : List String)
    (t : Table) (hnum : 1 ≤ num) (hne : versions ≠ []) (hf : versions.length ≤ fuel) :
    ∃ (ops : Table) (c : List String) (cs : List (List String)),
      unwrapRows SprintFunc fuel i path curVersion num versions t = .ok (t ++ ops) ∧
      rowsOf ops
        = [Cell.int (i + 1), Cell.str (blue SprintFunc path), Cell.str curVersion,
            Cell.str (strings.Join c ", ")]
          :: cs.map (fun x => [Cell.str "", Cell.str "", Cell.str "",
              Cell.str (strings.Join x ", ")]) ∧
      (c :: cs).flatten = versions ∧
      (∀ x ∈ c :: cs, (x.length : Int) ≤ num) ∧
      (∀ x ∈ (c :: cs).dropLast, (x.length : Int) = num) := by
  obtain ⟨n, rfl⟩ : ∃ n : Nat, num = (n : Int) := ⟨num.toNat, by omega⟩
  have hn : 1 ≤ n := by omega
  obtain ⟨c, cs, ops, hrun, hrows, hflat, hle, hfull, -, -, -⟩ :=
    unwrapRows_spec SprintFunc n hn fuel i path curVersion versions t hne hf
  refine ⟨firstRow SprintFunc i path curVersion c :: ops, c, cs, hrun, ?_, hflat, ?_, ?_⟩
  · simp only [firstRow, rowsOf, hrows, rowsOf_map_nextRow]
  · intro x hx
    exact_mod_cast hle x hx
  · intro x hx
    exact_mod_cast hfull x hx

theorem unwrapRows_wraps_versions_witness :
    ((1 : Int) ≤ 2 ∧ ["v1.1.0", "v1.2.0", "v2.0.0"] ≠ [] ∧
      ["v1.1.0", "v1.2.0", "v2.0.0"].length ≤ 3) ∧
    ∃ (ops : Table) (c : List String) (cs : List (List String)),
      unwrapRows ansiSprint 3 0 "example.com/a" "v1.0.0" 2 ["v1.1.0", "v1.2.0", "v2.0.0"] []
        = .ok ([] ++ ops) ∧
      rowsOf ops
        = [Cell.int (0 + 1), Cell.str (blue ansiSprint "example.com/a"), Cell.str "v1.0.0",
            Cell.str (strings.Join c ", ")]
          :: cs.map (fun x => [Cell.str "", Cell.str "", Cell.str "",
              Cell.str (strings.Join x ", ")]) ∧
      (c :: cs).flatten = ["v1.1.0", "v1.2.0", "v2.0.0"] ∧
      (∀ x ∈ c :: cs, (x.length : Int) ≤ 2) ∧
      (∀ x ∈ (c :: cs).dropLast, (x.length : Int) = 2) :=
  ⟨⟨by decide, by decide, by decide⟩,
    unwrapRows_wraps_versions ansiSprint 3 0 "example.com/a" "v1.0.0" 2
      ["v1.1.0", "v1.2.0", "v2.0.0"] [] (by decide) (by decide) (by decide)⟩

theorem unwrapRows_negative_num (SprintFunc : color.Attribute → String → String)
    (fuel : Nat) (i : Int) (path curVersion : String) (num : Int) (versions : List String)
    (t : Table) (hnum : num < 0) :
    unwrapRows SprintFunc fuel i path curVersion num versions t = .error Fault.panic := by
  have hgt : (versions.length : Int) > num := by omega
  have hs : ¬ (0 ≤ num ∧ num ≤ (versions.length : Int)) := by omega
  simp [unwrapRows, hgt, sliceTo, hs]

theorem unwrapRows_loop_zero_num : ∀ (fuel : Nat) (versions : List String) (t : Table),
    versions ≠ [] →
    unwrapRows.loop 0 fuel (versions.length : Int) versions t = .error Fault.outOfFuel := by
  intro fuel
  induction fuel with
  | zero =>
    intro versions t hne
    have : 0 < versions.length := List.length_pos.mpr hne
    have hgt : (versions.length : Int) > 0 := by omega
    simp [unwrapRows.loop, hgt]
  | succ fuel ih =>
    intro versions t hne
    have : 0 < versions.length := List.length_pos.mpr hne
    have hgt : (versions.length : Int) > 0 := by omega
    have h1 := sliceFrom_natCast versions 0 (by omega)
    have h2 := sliceTo_natCast versions 0 (by omega)
    simp only [Nat.cast_zero, List.drop_zero, List.take_zero] at h1 h2
    rw [unwrapRows.loop]
    have hs : ¬ ((versions.length : Int) < 0) := by omega
    simp only [hgt, if_true, h1, h2, hs, if_false, sub_zero]
    exact ih versions _ hne

theorem unwrapRows_zero_num (SprintFunc : color.Attribute → String → String)
    (fuel : Nat) (i : Int) (path curVersion : String) (versions : List String)
    (t : Table) (hne : versions ≠ []) :
    unwrapRows SprintFunc fuel i path curVersion 0 versions t = .error Fault.outOfFuel := by
  have : 0 < versions.length := List.length_pos.mpr hne
  have hgt : (versions.length : Int) > 0 := by omega
  have h2 := sliceTo_natCast versions 0 (by omega)
  simp only [Nat.cast_zero, List.take_zero] at h2
  unfold unwrapRows
  simp only [hgt, if_true, h2]
  exact unwrapRows_loop_zero_num fuel versions _ hne

theorem versionNumber_narrow (width : Int) (h0 : 0 ≤ width) (h1 : width ≤ 50) :
    versionNumber width < 0 := by
  unfold versionNumber entryLength
  interval_cases width <;> decide

theorem versionNumber_middle (width : Int) (h0 : 51 ≤ width) (h1 : width ≤ 69) :
    versionNumber width = 0 := by
  unfold versionNumber entryLength
  interval_cases width <;> decide

/-- For every terminal width from 0 to 69 and every non-empty list, `unwrapRows`
called with `versionNumber width` does not return: up to width 50 it panics on
`versions[:num]` with a negative `num`, from 51 to 69 `num` is 0 and the loop
runs out of every amount of fuel. -/
theorem unwrapRows_narrow_terminal (SprintFunc : color.Attribute → String → String)
    (fuel : Nat) (i : Int) (path curVersion : String) (width : Int) (versions : List String)
    (t : Table) (h0 : 0 ≤ width) (h1 : width ≤ 69) (hne : versions ≠ []) :
    unwrapRows SprintFunc fuel i path curVersion (versionNumber width) versions t
      = .error (if width ≤ 50 then Fault.panic else Fault.outOfFuel) := by
  by_cases hw : width ≤ 50
  · rw [if_pos hw]
    exact unwrapRows_negative_num _ _ _ _ _ _ _ _ (versionNumber_narrow width h0 hw)
  · rw [if_neg hw, versionNumber_middle width (by omega) h1]
    exact unwrapRows_zero_num _ _ _ _ _ _ _ hne

/-- C9: with terminal width 0 `unwrapRows` panics on the slice `versions[:num]`
(`num` is -6), and with terminal width 60 (`num` is 0) its loop never ends:
no amount of fuel lets it return. -/
theorem unwrapRows_unsafe_widths :
    versionNumber 0 = -6 ∧ versionNumber 60 = 0 ∧
    (∀ fuel : Nat, unwrapRows plainSprint fuel 0 "example.com/a" "v1.0.0" (versionNumber 0)
      ["v1.1.0"] [] = .error Fault.panic) ∧
    (∀ fuel : Nat, unwrapRows plainSprint fuel 0 "example.com/a" "v1.0.0" (versionNumber 60)
      ["v1.1.0"] [] = .error Fault.outOfFuel) := by
  refine ⟨by decide, by decide, ?_, ?_⟩
  · intro fuel
    exact unwrapRows_negative_num _ _ _ _ _ _ _ _ (by decide)
  · intro fuel
    have h : versionNumber 60 = 0 := by decide
    rw [h]
    exact unwrapRows_zero_num _ _ _ _ _ _ _ (by decide)

/-- The number of separators `unwrapRows` appends for `num ≥ 1`: none when the
number of versions is a multiple of `num` greater than `num`, one otherwise,
and then it is the last call. -/
theorem unwrapRows_separatorCount (SprintFunc : color.Attribute → String → String)
    (fuel : Nat) (i : Int) (path curVersion : String) (n : Nat) (versions : List String)
    (t : Table) (hn : 1 ≤ n) (hne : versions ≠ []) (hf : versions.length ≤ fuel) :
    ∃ ops : Table,
      unwrapRows SprintFunc fuel i path curVersion (n : Int) versions t = .ok (t ++ ops) ∧
      separatorCount ops = (if n < versions.length ∧ versions.length % n = 0 then 0 else 1) ∧
      (separatorCount ops = 1 → ops.getLast? = some TableOp.AppendSeparator) := by
  obtain ⟨c, cs, ops, hrun, -, -, -, -, -, hsep, hlast⟩ :=
    unwrapRows_spec SprintFunc n hn fuel i path curVersion versions t hne hf
  refine ⟨firstRow SprintFunc i path curVersion c :: ops, hrun, ?_, ?_⟩
  · simpa [separatorCount, firstRow] using hsep
  · intro h
    have h1 : separatorCount ops = 1 := by simpa [separatorCount, firstRow] using h
    have hl := hlast h1
    cases ops with
    | nil => simp at hl
    | cons o os => simpa [List.getLast?_cons_cons] using hl

/-- C10: with `num` 2 (terminal width 80) and four versions, a multiple of
`num` greater than `num`, `unwrapRows` appends two rows and no separator. -/
theorem unwrapRows_no_separator_on_exact_multiple :
    versionNumber 80 = 2 ∧
    unwrapRows plainSprint 4 0 "example.com/a" "v1.0.0" (versionNumber 80)
        ["v1.0.1", "v1.1.0", "v1.2.0", "v2.0.0"] []
      = .ok [firstRow plainSprint 0 "example.com/a" "v1.0.0" ["v1.0.1", "v1.1.0"],
          nextRow ["v1.2.0", "v2.0.0"]] ∧
    separatorCount [firstRow plainSprint 0 "example.com/a" "v1.0.0" ["v1.0.1", "v1.1.0"],
      nextRow ["v1.2.0", "v2.0.0"]] = 0 := by
  decide

/-! ## The render loop -/

/-- The inner loop of `main` when every version string parses: it returns the
non-empty `filterVersions` results of the newer available versions, in order. -/
theorem newVersionsLoop_ok (SprintFunc : color.Attribute → String → String) (L : VersionLib)
    (cfg : config) (mod : Mod) (c : L.V)
    (hcur : L.NewVersion mod.CurrentVersion.original = some c) :
    ∀ (avs : List version) (acc : List String),
    (∀ a ∈ avs, (L.NewVersion a.original).isSome = true) →
    main.newVersionsLoop SprintFunc L cfg mod avs acc
      = .ok (acc ++ ((avs.filter (main.newerThan L c)).map
          (fun a => filterVersions SprintFunc a cfg.incompatibleFlag cfg.filterFlag)).filter
            (fun s => decide (s ≠ ""))) := by
  intro avs
  induction avs with
  | nil => intro acc _; simp [main.newVersionsLoop]
  | cons a rest ih =>
    intro acc h
    obtain ⟨x, hx⟩ := Option.isSome_iff_exists.mp (h a (by simp))
    have hrest : ∀ b ∈ rest, (L.NewVersion b.original).isSome = true :=
      fun b hb => h b (by simp [hb])
    have hnew : main.newerThan L c a = L.GreaterThan x c := by simp [main.newerThan, hx]
    rw [main.newVersionsLoop]
    simp only [hcur, hx]
    by_cases hg : L.GreaterThan x c = true
    · by_cases hv : filterVersions SprintFunc a cfg.incompatibleFlag cfg.filterFlag ≠ ""
      · rw [if_pos hg, if_pos hv, ih _ hrest]
        simp [List.filter_cons, hnew, hg, hv]
      · rw [if_pos hg, if_neg hv, ih _ hrest]
        simp [List.filter_cons, hnew, hg, hv]
    · rw [if_neg hg, ih _ hrest]
      simp [List.filter_cons, hnew, hg]

theorem filterVersions_empty (SprintFunc : color.Attribute → String → String) (v : version)
    (s : Bool) :
    filterVersions SprintFunc v s ""
      = if s = false ∧ v.incompatible = true then ""
        else colorVersion SprintFunc v.status v.original := by
  unfold filterVersions
  cases s <;> cases hi : v.incompatible <;> simp

/-- C6, as amended: the empty filter removes no tier. `filterVersions` with the
empty filter returns the coloured version, except for an incompatible version
with showIncompatible off, which it drops; and when every version string of
`mod` parses, `newVersions` of the render loop with the empty filter is the
list of the non-empty coloured forms of the newer available versions that are
compatible or shown. -/
theorem filterVersions_empty_filter_keeps_all
    (SprintFunc : color.Attribute → String → String) (L : VersionLib) (m w : Int)
    (showIncompatible : Bool) (mod : Mod) (c : L.V)
    (hcur : L.NewVersion mod.CurrentVersion.original = some c)
    (havail : ∀ a ∈ mod.AvailableVersions, (L.NewVersion a.original).isSome = true) :
    (∀ (v : version) (s : Bool),
      filterVersions SprintFunc v s ""
        = if s = false ∧ v.incompatible = true then ""
          else colorVersion SprintFunc v.status v.original) ∧
    main.newVersions SprintFunc L ⟨m, "", showIncompatible, w⟩ mod
      = .ok (((mod.AvailableVersions.filter
          (fun a => main.newerThan L c a && (showIncompatible || !a.incompatible))).map
          (fun a => colorVersion SprintFunc a.status a.original)).filter
            (fun s => decide (s ≠ ""))) := by
  refine ⟨filterVersions_empty SprintFunc, ?_⟩
  unfold main.newVersions
  rw [newVersionsLoop_ok SprintFunc L _ mod c hcur _ _ havail]
  simp only [List.nil_append]
  congr 1
  generalize mod.AvailableVersions = avs
  induction avs with
  | nil => rfl
  | cons a rest ih =>
    simp only [List.filter_cons]
    by_cases hn : main.newerThan L c a = true
    · by_cases hg : (showIncompatible || !a.incompatible) = true
      · have hf : filterVersions SprintFunc a showIncompatible ""
            = colorVersion SprintFunc a.status a.original := by
          rw [filterVersions_empty]
          cases showIncompatible <;> cases hi : a.incompatible <;> simp_all
        simp only [hn, hg, Bool.and_self, if_true, List.map_cons, List.filter_cons, hf, ih]
      · have hf : filterVersions SprintFunc a showIncompatible "" = "" := by
          rw [filterVersions_empty]
          cases showIncompatible <;> cases hi : a.incompatible <;> simp_all
        simp only [hn, hg, Bool.and_false, Bool.and_true, if_true, List.map_cons,
          List.filter_cons, hf, ih]
        simp
    · rw [Bool.not_eq_true] at hn
      simp only [hn, Bool.false_and, Bool.false_eq_true, if_false]
      exact ih

theorem filterVersions_empty_filter_keeps_all_witness :
    (dottedLib.NewVersion sampleModC.CurrentVersion.original = some ([1, 0, 0] : List Nat) ∧
      ∀ a ∈ sampleModC.AvailableVersions, (dottedLib.NewVersion a.original).isSome = true) ∧
    ((∀ (v : version) (s : Bool),
      filterVersions plainSprint v s ""
        = if s = false ∧ v.incompatible = true then ""
          else colorVersion plainSprint v.status v.original) ∧
    main.newVersions plainSprint dottedLib ⟨10, "", false, 0⟩ sampleModC
      = .ok (((sampleModC.AvailableVersions.filter
          (fun a => main.newerThan dottedLib ([1, 0, 0] : List Nat) a
            && (false || !a.incompatible))).map
          (fun a => colorVersion plainSprint a.status a.original)).filter
            (fun s => decide (s ≠ "")))) :=
  ⟨⟨by decide, by decide⟩,
    filterVersions_empty_filter_keeps_all plainSprint dottedLib 10 0 false sampleModC
      ([1, 0, 0] : List Nat) (by decide) (by decide)⟩

theorem newVersions_ok (SprintFunc : color.Attribute → String → String) (L : VersionLib)
    (cfg : config) (mod : Mod)
    (hcur : (L.NewVersion mod.CurrentVersion.original).isSome = true)
    (havail : ∀ a ∈ mod.AvailableVersions, (L.NewVersion a.original).isSome = true) :
    ∃ nv : List String, main.newVersions SprintFunc L cfg mod = .ok nv ∧
      nv.length ≤ mod.AvailableVersions.length := by
  obtain ⟨c, hc⟩ := Option.isSome_iff_exists.mp hcur
  refine ⟨[] ++ ((mod.AvailableVersions.filter (main.newerThan L c)).map
      (fun a => filterVersions SprintFunc a cfg.incompatibleFlag cfg.filterFlag)).filter
        (fun s => decide (s ≠ "")), ?_, ?_⟩
  · unfold main.newVersions
    rw [newVersionsLoop_ok SprintFunc L cfg mod c hc _ _ havail]
  · simp only [List.nil_append]
    refine le_trans (List.length_filter_le _ _) ?_
    rw [List.length_map]
    exact List.length_filter_le _ _

/-- The render loop of `main` for `num ≥ 1` when every version string parses
and there is fuel for every `unwrapRows` call: it returns, and it adds to the
"#" column the number `p + 1` for every position `p` (counted from `i`) of a
mod that has a row. -/
theorem renderLoop_spec (SprintFunc : color.Attribute → String → String) (L : VersionLib)
    (cfg : config) (n : Nat) (hn : 1 ≤ n) (fuel : Nat) :
    ∀ (mods : List Mod) (i : Nat) (t : Table),
    (∀ m ∈ mods, (L.NewVersion m.CurrentVersion.original).isSome = true ∧
      (∀ a ∈ m.AvailableVersions, (L.NewVersion a.original).isSome = true) ∧
      m.AvailableVersions.length ≤ fuel) →
    ∃ t1 : Table, main.renderLoop SprintFunc fuel L cfg (n : Int) i mods t = .ok t1 ∧
      rankColumn t1 = rankColumn t ++
        ((mods.enumFrom i).filter (fun p => main.hasRow SprintFunc L cfg p.2)).map
          (fun p => (p.1 : Int) + 1) := by
  intro mods
  induction mods with
  | nil => intro i t _; exact ⟨t, by simp [main.renderLoop], by simp⟩
  | cons m rest ih =>
    intro i t h
    obtain ⟨hcur, havail, hfuel⟩ := h m (by simp)
    have hrest : ∀ m1 ∈ rest, (L.NewVersion m1.CurrentVersion.original).isSome = true ∧
        (∀ a ∈ m1.AvailableVersions, (L.NewVersion a.original).isSome = true) ∧
        m1.AvailableVersions.length ≤ fuel := fun m1 hm1 => h m1 (by simp [hm1])
    obtain ⟨nv, hnv, hnvlen⟩ := newVersions_ok SprintFunc L cfg m hcur havail
    have hrow : main.hasRow SprintFunc L cfg m = decide (nv.length ≠ 0) := by
      simp [main.hasRow, hnv]
    rw [main.renderLoop, List.enumFrom_cons, List.filter_cons]
    simp only [hnv, hrow]
    by_cases hz : nv.length ≠ 0
    · have hne : nv ≠ [] := fun e => hz (by simp [e])
      obtain ⟨c, cs, ops, hrun, -, -, -, -, hrank, -, -⟩ :=
        unwrapRows_spec SprintFunc n hn fuel (i : Int) m.Path m.CurrentVersion.original nv t
          hne (by omega)
      obtain ⟨t1, ht1, hr1⟩ := ih (i + 1) (t ++ firstRow SprintFunc (i : Int) m.Path
        m.CurrentVersion.original c :: ops) hrest
      refine ⟨t1, ?_, ?_⟩
      · simp only [hz, if_true, ne_eq, not_false_eq_true, hrun]
        exact ht1
      · rw [hr1, rankColumn_append]
        simp [hz, rankColumn, firstRow, hrank]
    · obtain ⟨t1, ht1, hr1⟩ := ih (i + 1) t hrest
      refine ⟨t1, ?_, ?_⟩
      · simp only [hz, if_false]
        exact ht1
      · rw [hr1]
        simp [hz]

theorem pairwise_fst_enumFrom (l : List Mod) :
    ∀ i : Nat, (l.enumFrom i).Pairwise (fun p q => p.1 < q.1) := by
  induction l with
  | nil => intro i; simp
  | cons m rest ih =>
    intro i
    rw [List.enumFrom_cons, List.pairwise_cons]
    refine ⟨?_, ih (i + 1)⟩
    intro q hq
    have := List.le_fst_of_mem_enumFrom hq
    simp only
    omega

/-- The numbers the render loop of `main` writes for `num ≥ 1`, when every
version string parses and there is fuel for every `unwrapRows` call: the loop
returns and the "#" column, top to bottom, holds the 1-based positions in
`mods` of the dependencies that have a row; the numbers increase strictly and
lie between 1 and the length of `mods`. -/
theorem renderLoop_ranks_are_positions (SprintFunc : color.Attribute → String → String)
    (L : VersionLib) (cfg : config) (num : Int) (fuel : Nat) (mods : List Mod)
    (hnum : 1 ≤ num)
    (hparse : ∀ m ∈ mods, (L.NewVersion m.CurrentVersion.original).isSome = true ∧
      ∀ a ∈ m.AvailableVersions, (L.NewVersion a.original).isSome = true)
    (hfuel : ∀ m ∈ mods, m.AvailableVersions.length ≤ fuel) :
    ∃ t : Table, main.renderLoop SprintFunc fuel L cfg num 0 mods [] = .ok t ∧
      rankColumn t
        = ((mods.enum).filter (fun p => main.hasRow SprintFunc L cfg p.2)).map
            (fun p => (p.1 : Int) + 1) ∧
      (rankColumn t).Pairwise (fun a b => a < b) ∧
      (∀ r ∈ rankColumn t, 1 ≤ r ∧ r ≤ (mods.length : Int)) := by
  obtain ⟨n, rfl⟩ : ∃ n : Nat, num = (n : Int) := ⟨num.toNat, by omega⟩
  have hn : 1 ≤ n := by omega
  obtain ⟨t, hrun, hrank⟩ := renderLoop_spec SprintFunc L cfg n hn fuel mods 0 []
    (fun m hm => ⟨(hparse m hm).1, (hparse m hm).2, hfuel m hm⟩)
  have hrank1 : rankColumn t
      = ((mods.enum).filter (fun p => main.hasRow SprintFunc L cfg p.2)).map
          (fun p => (p.1 : Int) + 1) := by
    rw [hrank]
    simp [rankColumn, List.enum]
  refine ⟨t, hrun, hrank1, ?_, ?_⟩
  · rw [hrank1, List.pairwise_map]
    refine List.Pairwise.imp ?_ (List.Pairwise.filter _ (pairwise_fst_enumFrom mods 0))
    intro p q hpq
    omega
  · intro r hr
    rw [hrank1] at hr
    obtain ⟨p, hp, rfl⟩ := List.mem_map.mp hr
    have hmem := (List.mem_filter.mp hp).1
    have hlt := List.fst_lt_add_of_mem_enumFrom hmem
    omega

theorem renderLoop_ranks_are_positions_witness :
    ((1 : Int) ≤ 2 ∧
      (∀ m ∈ [sampleModA, sampleModB],
        (dottedLib.NewVersion m.CurrentVersion.original).isSome = true ∧
        ∀ a ∈ m.AvailableVersions, (dottedLib.NewVersion a.original).isSome = true) ∧
      (∀ m ∈ [sampleModA, sampleModB], m.AvailableVersions.length ≤ 4)) ∧
    ∃ t : Table,
      main.renderLoop ansiSprint 4 dottedLib defaultConfig 2 0 [sampleModA, sampleModB] []
        = .ok t ∧
      rankColumn t
        = (([sampleModA, sampleModB].enum).filter
            (fun p => main.hasRow ansiSprint dottedLib defaultConfig p.2)).map
            (fun p => (p.1 : Int) + 1) ∧
      (rankColumn t).Pairwise (fun a b => a < b) ∧
      (∀ r ∈ rankColumn t, 1 ≤ r ∧ r ≤ (([sampleModA, sampleModB] : List Mod).length : Int)) :=
  ⟨⟨by decide, by decide, by decide⟩,
    renderLoop_ranks_are_positions ansiSprint dottedLib defaultConfig 2 4
      [sampleModA, sampleModB] (by decide) (by decide) (by decide)⟩

/-- C7: in a run without flags in a terminal 80 columns wide (`versionNumber`
2), the first of two dependencies has only an incompatible newer version and
gets no row, and the one dependency that is reported is numbered 2, not 1: the
"#" column is not 1, ..., k. On the same list with show-incompatible on, both
dependencies have a row and the numbers are 1, 2. -/
theorem renderLoop_rank_has_gap :
    init defaultConfig = .ok () ∧
    main.hasRow plainSprint dottedLib defaultConfig sampleModA = false ∧
    main.renderLoop plainSprint 4 dottedLib defaultConfig
        (versionNumber 80) 0 [sampleModA, sampleModB] []
      = .ok [firstRow plainSprint 1 "example.com/b" "v1.0.0" ["v1.1.0"],
          TableOp.AppendSeparator] ∧
    rankColumn [firstRow plainSprint 1 "example.com/b" "v1.0.0" ["v1.1.0"],
      TableOp.AppendSeparator] = [2] ∧
    (rowsOf [firstRow plainSprint 1 "example.com/b" "v1.0.0" ["v1.1.0"],
      TableOp.AppendSeparator]).length = 1 ∧
    main.renderLoop plainSprint 4 dottedLib ⟨10, "major,minor,patch", true, 0⟩
        (versionNumber 80) 0 [sampleModA, sampleModB] []
      = .ok [firstRow plainSprint 0 "example.com/a" "v1.0.0" ["v2.0.0+incompatible"],
          TableOp.AppendSeparator,
          firstRow plainSprint 1 "example.com/b" "v1.0.0" ["v1.1.0"],
          TableOp.AppendSeparator] ∧
    rankColumn [firstRow plainSprint 0 "example.com/a" "v1.0.0" ["v2.0.0+incompatible"],
      TableOp.AppendSeparator,
      firstRow plainSprint 1 "example.com/b" "v1.0.0" ["v1.1.0"],
      TableOp.AppendSeparator] = [1, 2] := by
  decide

end GomodCheck
